import Mathlib

/-!
Shallow embedding of the ToneGenius real-time pitch-detection and
tempo-scheduling core, together with theorems checking the natural-language
specification against it.

Machine floating-point numbers are modelled by exact rationals (`ℚ`);
JavaScript `NaN` values, where they can arise and matter for control flow,
are modelled explicitly by `Option ℚ` with `none` for `NaN`, and the
JavaScript comparison semantics (`NaN < x` is false) is modelled by
comparison functions on `Option ℚ`.  `Math.round` is `⌊x + 1/2⌋` (JS rounds
half-way cases toward positive infinity), `Math.floor`/`Math.ceil` are
`⌊·⌋`/`⌈·⌉`, and the JS `%` operator on integers is `Int.tmod` (remainder
with the sign of the dividend).
-/

namespace ToneGenius

/-- JS `Math.round`: rounds half-way cases toward positive infinity. -/
def jsRound (x : ℚ) : ℤ := ⌊x + 1/2⌋

/-! ## src/components/MicAnswer.tsx — cents against the target pitch class

`nearestMidiForPc` is the literal translation of

    function nearestMidiForPc(midiFloat: number, pc: number): number {
      const k = Math.round((midiFloat - pc) / 12);
      return pc + 12 * k;
    }
-/

/-- Nearest MIDI note of pitch class `pc` to the fractional MIDI number
`midiFloat` (source: `nearestMidiForPc` in `MicAnswer.tsx`). -/
def nearestMidiForPc (midiFloat pc : ℚ) : ℚ :=
  pc + 12 * (jsRound ((midiFloat - pc) / 12) : ℚ)

/-! ## src/utils/audio.ts — pitch-class conversions -/

/-- `midiToPc` from `audio.ts`:
`let x = Math.round(m) % 12; return x < 0 ? x + 12 : x;`
(JS `%` keeps the sign of the dividend, hence `Int.tmod`). -/
def midiToPc (m : ℚ) : ℤ :=
  let x := (jsRound m).tmod 12
  if x < 0 then x + 12 else x

/-! ## src/utils/music.ts — `addSemitones` -/

/-- The `while (v < 0) v += 12` loop from `addSemitones`. -/
def addSemitonesFix (v : ℤ) : ℤ :=
  if v < 0 then addSemitonesFix (v + 12) else v
termination_by (-v).toNat
decreasing_by omega

/-- `addSemitones` from `music.ts`:
`let v = rootPc + (delta % 12); while (v < 0) v += 12; return v % 12;`. -/
def addSemitones (rootPc delta : ℤ) : ℤ :=
  (addSemitonesFix (rootPc + delta.tmod 12)).tmod 12

/-! ## src/components/MicAnswer.tsx — median window and hold timer -/

/-- `median` from `MicAnswer.tsx`: sort ascending, middle element for odd
length, mean of the two middle elements for even length, `0` for `[]`. -/
def median (a : List ℚ) : ℚ :=
  if a.length = 0 then 0
  else
    let s := a.mergeSort (fun x y => x ≤ y)
    let m := a.length / 2
    if a.length % 2 = 1 then s.getD m 0 else (s.getD (m - 1) 0 + s.getD m 0) / 2

/-- The median ring buffer update from `MicAnswer.tsx`:
`win.push(centsRaw); if (win.length > maxWin) win.shift();`. -/
def pushWindow (maxWin : ℕ) (win : List ℚ) (c : ℚ) : List ℚ :=
  let w := win ++ [c]
  if maxWin < w.length then w.drop 1 else w

/-- The hold-timer/hysteresis update from `MicAnswer.tsx` (lines 182–195),
acting on the median-filtered cents offset.  Returns the new `heldMs` and
whether `onCorrect` fired this frame.  `HYSTERESIS_EXTRA_CENTS = 7`.

    const inRange = Math.abs(centsFiltered) <= centsTolerance;
    const outRange = Math.abs(centsFiltered) > centsTolerance + 7;
    if (inRange) {
      heldMs += dtMs;
      if (heldMs >= holdMs) { heldMs = 0; onCorrect(); }
    } else if (outRange) { heldMs = 0; }
-/
def holdUpdate (tol holdMs centsFiltered held dtMs : ℚ) : ℚ × Bool :=
  if |centsFiltered| ≤ tol then
    let h := held + dtMs
    if holdMs ≤ h then (0, true) else (h, false)
  else if tol + 7 < |centsFiltered| then (0, false)
  else (held, false)

/-- One full hold-logic frame: push the raw cents into the median window,
median-filter, then update the hold timer (source: `MicAnswer.tsx` tick,
lines 175–195).  Returns (new window, new heldMs, fired). -/
def micHoldFrame (tol holdMs : ℚ) (maxWin : ℕ) (win : List ℚ)
    (held centsRaw dtMs : ℚ) : List ℚ × ℚ × Bool :=
  let w := pushWindow maxWin win centsRaw
  let cf := median w
  let r := holdUpdate tol holdMs cf held dtMs
  (w, r.1, r.2)

/-- Fold `holdUpdate` over a sequence of frames, each a pair
(median-filtered cents, dt in ms).  Returns the final `heldMs` and the
per-frame fired flags. -/
def runHold (tol holdMs : ℚ) : ℚ → List (ℚ × ℚ) → ℚ × List Bool
  | held, [] => (held, [])
  | held, f :: rest =>
    let r := holdUpdate tol holdMs f.1 held f.2
    let t := runHold tol holdMs r.1 rest
    (t.1, r.2 :: t.2)

/-- Sum of the `dt` components of a frame list. -/
def sumDt (frames : List (ℚ × ℚ)) : ℚ := (frames.map (fun f => f.2)).sum

/-! ## Helper lemmas -/

lemma neg_tmod_eq (a b : ℤ) : (-a).tmod b = -(a.tmod b) := by
  rw [Int.tmod_def, Int.tmod_def, Int.neg_tdiv]
  ring

lemma tmod_twelve_bounds (a : ℤ) : -12 < a.tmod 12 ∧ a.tmod 12 < 12 := by
  rcases le_or_lt 0 a with h | h
  · have h1 := Int.tmod_nonneg (a := a) 12 h
    have h2 := Int.tmod_lt_of_pos a (show (0:ℤ) < 12 by norm_num)
    omega
  · have h1 := Int.tmod_nonneg (a := -a) 12 (by omega)
    have h2 := Int.tmod_lt_of_pos (-a) (show (0:ℤ) < 12 by norm_num)
    rw [neg_tmod_eq] at h1 h2
    omega

lemma addSemitonesFix_nonneg (v : ℤ) : 0 ≤ addSemitonesFix v := by
  induction v using addSemitonesFix.induct with
  | case1 v h ih => rw [addSemitonesFix, if_pos h]; exact ih
  | case2 v h => rw [addSemitonesFix, if_neg h]; omega

/-- C5.  For every fractional MIDI number and every target pitch class in
0..11, the signed semitone distance to the nearest octave instance of the
target computed by `nearestMidiForPc` lies in `[-6, 6)`, hence the cents
offset used by the gate lies in `[-600, 600)`. -/
theorem claim_C5 (midiFloat pc : ℚ) (hpc0 : 0 ≤ pc) (hpc1 : pc ≤ 11) :
    -6 ≤ midiFloat - nearestMidiForPc midiFloat pc ∧
    midiFloat - nearestMidiForPc midiFloat pc < 6 ∧
    -600 ≤ 100 * (midiFloat - nearestMidiForPc midiFloat pc) ∧
    100 * (midiFloat - nearestMidiForPc midiFloat pc) < 600 := by
  have hx : 12 * ((midiFloat - pc) / 12) = midiFloat - pc := by ring
  have hk1 : ((⌊(midiFloat - pc) / 12 + 1/2⌋ : ℤ) : ℚ) ≤ (midiFloat - pc) / 12 + 1/2 :=
    Int.floor_le _
  have hk2 : (midiFloat - pc) / 12 + 1/2 < (⌊(midiFloat - pc) / 12 + 1/2⌋ : ℤ) + 1 :=
    Int.lt_floor_add_one _
  unfold nearestMidiForPc jsRound
  constructor
  · nlinarith [hk2, hx]
  refine ⟨by nlinarith [hk1, hx], by nlinarith [hk2, hx], by nlinarith [hk1, hx]⟩

/-- Witness for C5 at a concrete input. -/
theorem claim_C5_witness :
    (0:ℚ) ≤ 7 ∧ (7:ℚ) ≤ 11 ∧
    (-6 ≤ (100:ℚ) - nearestMidiForPc 100 7 ∧ (100:ℚ) - nearestMidiForPc 100 7 < 6 ∧
     -600 ≤ 100 * ((100:ℚ) - nearestMidiForPc 100 7) ∧
     100 * ((100:ℚ) - nearestMidiForPc 100 7) < 600) :=
  ⟨by norm_num, by norm_num, claim_C5 100 7 (by norm_num) (by norm_num)⟩

/-- C10.  Every pitch-class-producing operation lands in 0..11:
`midiToPc` for every (finite) input, and `addSemitones` for every pitch
class in 0..11 and every integer delta, including large negative deltas. -/
theorem claim_C10 :
    (∀ m : ℚ, 0 ≤ midiToPc m ∧ midiToPc m ≤ 11) ∧
    (∀ pc delta : ℤ, 0 ≤ pc → pc ≤ 11 →
      0 ≤ addSemitones pc delta ∧ addSemitones pc delta ≤ 11) := by
  constructor
  · intro m
    simp only [midiToPc]
    have h := tmod_twelve_bounds (jsRound m)
    split <;> omega
  · intro pc delta _ _
    unfold addSemitones
    have h0 := addSemitonesFix_nonneg (pc + delta.tmod 12)
    have h1 := Int.tmod_nonneg (a := addSemitonesFix (pc + delta.tmod 12)) 12 h0
    have h2 := Int.tmod_lt_of_pos (addSemitonesFix (pc + delta.tmod 12))
      (show (0:ℤ) < 12 by norm_num)
    omega

/-- Witness for C10 at concrete inputs (a negative MIDI number and a large
negative delta). -/
theorem claim_C10_witness :
    (0 ≤ midiToPc (-35/2) ∧ midiToPc (-35/2) ≤ 11) ∧
    ((0:ℤ) ≤ 3 ∧ (3:ℤ) ≤ 11 ∧
     0 ≤ addSemitones 3 (-25) ∧ addSemitones 3 (-25) ≤ 11) :=
  ⟨claim_C10.1 (-35/2),
   by norm_num,
   by norm_num,
   claim_C10.2 3 (-25) (by norm_num) (by norm_num)⟩

/-- C3, counterexample to the claim as stated: on a frame whose
median-filtered cents offset is 0 (within tolerance 25), with
`heldMs = 490`, `dt = 20` and `holdMs = 500`, the code sets `heldMs` to 0
(the completion reset) even though `|cents| ≤ tolerance + 7`, contradicting
"heldMs is reset to 0 only when `|cents| > toleranceCents + 7`". -/
theorem claim_C3_cx :
    micHoldFrame 25 500 7 [] 490 0 20 = ([0], 0, true) ∧
    ¬ (25 + 7 < |median [(0:ℚ)]|) := by
  have h1 : pushWindow 7 [] 0 = [0] := by simp [pushWindow]
  have h2 : median [(0:ℚ)] = 0 := by simp [median]
  refine ⟨?_, by rw [h2]; norm_num⟩
  simp only [micHoldFrame, h1, h2, holdUpdate]
  norm_num

/-- C3 as amended: with a valid smoothed pitch, `heldMs` accumulates by
`dt` exactly when the median-filtered cents offset is within tolerance and
the hold has not completed; it is set to 0 only when the offset exceeds
`tolerance + 7` (hysteresis reset) or when the hold completes
(`heldMs + dt ≥ holdMs` while in range, firing `onCorrect`); in the dead
zone `tolerance < |cents| ≤ tolerance + 7` it is left unchanged. -/
theorem claim_C3 (tol holdMs : ℚ) (maxWin : ℕ) (win : List ℚ)
    (held centsRaw dtMs : ℚ) :
    (|median (pushWindow maxWin win centsRaw)| ≤ tol →
      (holdMs ≤ held + dtMs →
        (micHoldFrame tol holdMs maxWin win held centsRaw dtMs).2 = (0, true)) ∧
      (held + dtMs < holdMs →
        (micHoldFrame tol holdMs maxWin win held centsRaw dtMs).2 =
          (held + dtMs, false))) ∧
    (tol < |median (pushWindow maxWin win centsRaw)| →
      |median (pushWindow maxWin win centsRaw)| ≤ tol + 7 →
      (micHoldFrame tol holdMs maxWin win held centsRaw dtMs).2 = (held, false)) ∧
    (tol + 7 < |median (pushWindow maxWin win centsRaw)| →
      (micHoldFrame tol holdMs maxWin win held centsRaw dtMs).2 = (0, false)) := by
  simp only [micHoldFrame, holdUpdate]
  refine ⟨fun hin => ⟨fun hc => ?_, fun hc => ?_⟩, fun hlo hhi => ?_, fun hout => ?_⟩ <;>
    split_ifs <;> first | rfl | (exfalso; linarith)

/-- Witness for C3 (amended) at a concrete input: an in-range frame that
does not complete the hold accumulates exactly `dt`. -/
theorem claim_C3_witness :
    |median (pushWindow 7 [] 0)| ≤ 25 ∧ (0:ℚ) + 16 < 500 ∧
    (micHoldFrame 25 500 7 [] 0 0 16).2 = ((0:ℚ) + 16, false) := by
  have h := (claim_C3 25 500 7 [] 0 0 16).1
  have hm : |median (pushWindow 7 [] 0)| ≤ 25 := by norm_num [median, pushWindow]
  exact ⟨hm, by norm_num, (h hm).2 (by norm_num)⟩

/-! ## src/data/intervals.ts bundle — metronome with global downbeat sync

    function nextGlobalDownbeat(ctxTime) {
      if (s.anchor == null || s.barLen <= 0) return null;
      const n = Math.ceil((ctxTime - s.anchor) / s.barLen);
      return s.anchor + n * s.barLen;
    }

and in `start()`:

    if (sync.anchor != null && sync.barLen > 0) {
      const nd = nextGlobalDownbeat(ctx.currentTime + 0.02) ?? (ctx.currentTime + 0.06);
      startAt = nd;
    } else {
      startAt = ctx.currentTime + 0.06;  // and publish ownership
    }
-/

/-- `nextGlobalDownbeat` from the global-sync metronome: the next downbeat
of the shared grid at or after `ctxTime` (`none` when no anchor or a
non-positive bar length). -/
def nextGlobalDownbeat (anchor : Option ℚ) (barLen ctxTime : ℚ) : Option ℚ :=
  match anchor with
  | none => none
  | some a => if barLen ≤ 0 then none else some (a + ⌈(ctxTime - a) / barLen⌉ * barLen)

/-- The start-time computation of `start()` in the global-sync metronome:
with an existing anchor and positive bar length, the instance starts on the
next shared downbeat computed 20 ms ahead of `now`; otherwise it starts at
`now + 0.06` (and becomes the anchor owner). -/
def metroStartAt (anchor : Option ℚ) (barLen now : ℚ) : ℚ :=
  if anchor ≠ none ∧ 0 < barLen then
    (nextGlobalDownbeat anchor barLen (now + 2/100)).getD (now + 6/100)
  else now + 6/100

/-- C7, counterexample to the claim as stated: with anchor 0, bar length 1
and current time 0.99, the code starts at
`anchor + ceil((now + 0.02 − anchor)/barLen)·barLen = 2`, not at
`anchor + ceil((now − anchor)/barLen)·barLen = 1` — the downbeat at t = 1
falls inside the 20 ms safety margin and is skipped. -/
theorem claim_C7_cx :
    metroStartAt (some 0) 1 (99/100) = 2 ∧
    (0:ℚ) + ⌈((99/100 : ℚ) - 0) / 1⌉ * 1 = 1 ∧ (2:ℚ) ≠ 1 := by
  refine ⟨?_, ?_, by norm_num⟩
  · simp only [metroStartAt, nextGlobalDownbeat]
    norm_num
    rw [if_neg (by simp), show (⌈(101/100 : ℚ)⌉ = 2) from by
      rw [Int.ceil_eq_iff] <;> norm_num]
    norm_num
  · rw [show ((99/100 : ℚ) - 0) / 1 = 99/100 by norm_num,
      show (⌈(99/100 : ℚ)⌉ = 1) from by rw [Int.ceil_eq_iff] <;> norm_num]
    norm_num

/-- C7 as amended: when a global sync anchor exists (anchor non-null,
`barLen > 0`), a starting instance's first scheduled event time is the next
shared downbeat at or after `now + 0.02` (the 20 ms scheduling safety
margin), namely `anchor + ceil((now + 0.02 − anchor)/barLen)·barLen`, which
is never before `now + 0.02`; only when no anchor exists does the instance
start at `now + 0.06` and publish itself as owner. -/
theorem claim_C7 (a barLen now : ℚ) (hbar : 0 < barLen) :
    metroStartAt (some a) barLen now =
      a + ⌈(now + 2/100 - a) / barLen⌉ * barLen ∧
    now + 2/100 ≤ metroStartAt (some a) barLen now ∧
    metroStartAt none barLen now = now + 6/100 := by
  have heq : metroStartAt (some a) barLen now =
      a + ⌈(now + 2/100 - a) / barLen⌉ * barLen := by
    simp only [metroStartAt, nextGlobalDownbeat]
    rw [if_pos ⟨by simp, hbar⟩, if_neg (by linarith)]
    rfl
  refine ⟨heq, ?_, by simp [metroStartAt]⟩
  rw [heq]
  have hle : (now + 2/100 - a) / barLen ≤ (⌈(now + 2/100 - a) / barLen⌉ : ℚ) :=
    Int.le_ceil _
  have := (div_le_iff₀ hbar).mp hle
  linarith

/-- Witness for C7 at a concrete input: anchor 0, bar length 2, now 0.5;
the instance starts on the shared downbeat at t = 2. -/
theorem claim_C7_witness :
    (0:ℚ) < 2 ∧
    (metroStartAt (some 0) 2 (1/2) = 0 + ⌈((1/2 : ℚ) + 2/100 - 0) / 2⌉ * 2 ∧
     (1/2 : ℚ) + 2/100 ≤ metroStartAt (some 0) 2 (1/2) ∧
     metroStartAt none 2 (1/2) = 1/2 + 6/100) :=
  ⟨by norm_num, claim_C7 0 2 (1/2) (by norm_num)⟩

/-! ## src/modules/PolyrhythmModule.tsx — coincidence (accent) test

For an event of one stream at `tEvent`, the tick loop computes

    const idxApprox = Math.round((tEvent - base) / otherStep);
    const tOther = base + idxApprox * otherStep;
    const coincide = Math.abs(tOther - tEvent) < 0.008;
-/

/-- The coincidence (accent) test from the polyrhythm tick loop. -/
def polyCoincide (base ostep tEvent : ℚ) : Bool :=
  let idx := jsRound ((tEvent - base) / ostep)
  decide (|base + (idx : ℚ) * ostep - tEvent| < 8/1000)

lemma polyCoincide_offset (base ostep t : ℚ) :
    polyCoincide base ostep (base + t) =
      decide (|((⌊t / ostep + 1/2⌋ : ℤ) : ℚ) * ostep - t| < 8/1000) := by
  simp only [polyCoincide, jsRound, add_sub_cancel_left]
  congr 2
  ring

lemma floor_int_add_frac (z : ℤ) (x : ℚ) (h0 : 0 ≤ x) (h1 : x < 1) :
    ⌊(z:ℚ) + x⌋ = z := by
  rw [add_comm, Int.floor_add_int, Int.floor_eq_zero_iff.mpr ⟨h0, h1⟩, zero_add]

/-- C8.  For 3 against 4 over a 2-second bar (step sizes 2/3 and 2/4 from a
shared anchor `base`), an emitted event of either stream carries the
coincidence flag exactly when its time offset from the anchor is an integer
multiple of the bar length 2 — i.e. at bar boundaries and nowhere else. -/
theorem claim_C8 (base : ℚ) (i : ℕ) :
    (polyCoincide base (2/4) (base + (i:ℚ) * (2/3)) = true ↔
      ∃ k : ℕ, (i:ℚ) * (2/3) = 2 * k) ∧
    (polyCoincide base (2/3) (base + (i:ℚ) * (2/4)) = true ↔
      ∃ k : ℕ, (i:ℚ) * (2/4) = 2 * k) := by
  constructor
  · obtain ⟨q, r, hr, rfl⟩ : ∃ q r, r < 3 ∧ i = 3 * q + r :=
      ⟨i / 3, i % 3, Nat.mod_lt _ (by norm_num), (Nat.div_add_mod i 3).symm⟩
    rw [polyCoincide_offset]
    interval_cases r
    · rw [show ((3*q+0 : ℕ):ℚ) * (2/3) / (2/4) + 1/2 = ((4*(q:ℤ) : ℤ):ℚ) + 1/2 by
        push_cast; ring]
      rw [floor_int_add_frac _ _ (by norm_num) (by norm_num)]
      rw [show ((4*(q:ℤ) : ℤ):ℚ) * (2/4) - ((3*q+0 : ℕ):ℚ) * (2/3) = 0 by
        push_cast; ring]
      simp only [decide_eq_true_eq, abs_zero]
      norm_num
      exact ⟨q, by push_cast; ring⟩
    · rw [show ((3*q+1 : ℕ):ℚ) * (2/3) / (2/4) + 1/2 = ((4*(q:ℤ)+1 : ℤ):ℚ) + 5/6 by
        push_cast; ring]
      rw [floor_int_add_frac _ _ (by norm_num) (by norm_num)]
      rw [show ((4*(q:ℤ)+1 : ℤ):ℚ) * (2/4) - ((3*q+1 : ℕ):ℚ) * (2/3) = -(1/6) by
        push_cast; ring]
      simp only [decide_eq_true_eq, abs_neg]
      constructor
      · intro h
        exfalso
        rw [abs_of_pos (by norm_num : (0:ℚ) < 1/6)] at h
        linarith
      · rintro ⟨k, hk⟩
        exfalso
        push_cast at hk
        have h6 : (6*(k:ℚ)) = 6*(q:ℚ) + 2 := by linarith
        have h6' : 6*k = 6*q + 2 := by exact_mod_cast h6
        omega
    · rw [show ((3*q+2 : ℕ):ℚ) * (2/3) / (2/4) + 1/2 = ((4*(q:ℤ)+3 : ℤ):ℚ) + 1/6 by
        push_cast; ring]
      rw [floor_int_add_frac _ _ (by norm_num) (by norm_num)]
      rw [show ((4*(q:ℤ)+3 : ℤ):ℚ) * (2/4) - ((3*q+2 : ℕ):ℚ) * (2/3) = 1/6 by
        push_cast; ring]
      simp only [decide_eq_true_eq]
      constructor
      · intro h
        exfalso
        rw [abs_of_pos (by norm_num : (0:ℚ) < 1/6)] at h
        linarith
      · rintro ⟨k, hk⟩
        exfalso
        push_cast at hk
        have h6 : (6*(k:ℚ)) = 6*(q:ℚ) + 4 := by linarith
        have h6' : 6*k = 6*q + 4 := by exact_mod_cast h6
        omega
  · obtain ⟨q, r, hr, rfl⟩ : ∃ q r, r < 4 ∧ i = 4 * q + r :=
      ⟨i / 4, i % 4, Nat.mod_lt _ (by norm_num), (Nat.div_add_mod i 4).symm⟩
    rw [polyCoincide_offset]
    interval_cases r
    · rw [show ((4*q+0 : ℕ):ℚ) * (2/4) / (2/3) + 1/2 = ((3*(q:ℤ) : ℤ):ℚ) + 1/2 by
        push_cast; ring]
      rw [floor_int_add_frac _ _ (by norm_num) (by norm_num)]
      rw [show ((3*(q:ℤ) : ℤ):ℚ) * (2/3) - ((4*q+0 : ℕ):ℚ) * (2/4) = 0 by
        push_cast; ring]
      simp only [decide_eq_true_eq, abs_zero]
      norm_num
      exact ⟨q, by push_cast; ring⟩
    · rw [show ((4*q+1 : ℕ):ℚ) * (2/4) / (2/3) + 1/2 = ((3*(q:ℤ)+1 : ℤ):ℚ) + 1/4 by
        push_cast; ring]
      rw [floor_int_add_frac _ _ (by norm_num) (by norm_num)]
      rw [show ((3*(q:ℤ)+1 : ℤ):ℚ) * (2/3) - ((4*q+1 : ℕ):ℚ) * (2/4) = 1/6 by
        push_cast; ring]
      simp only [decide_eq_true_eq]
      constructor
      · intro h
        exfalso
        rw [abs_of_pos (by norm_num : (0:ℚ) < 1/6)] at h
        linarith
      · rintro ⟨k, hk⟩
        exfalso
        push_cast at hk
        have h4 : (4*(k:ℚ)) = 4*(q:ℚ) + 1 := by linarith
        have h4' : 4*k = 4*q + 1 := by exact_mod_cast h4
        omega
    · rw [show ((4*q+2 : ℕ):ℚ) * (2/4) / (2/3) + 1/2 = ((3*(q:ℤ)+2 : ℤ):ℚ) + 0 by
        push_cast; ring]
      rw [floor_int_add_frac _ _ (by norm_num) (by norm_num)]
      rw [show ((3*(q:ℤ)+2 : ℤ):ℚ) * (2/3) - ((4*q+2 : ℕ):ℚ) * (2/4) = 1/3 by
        push_cast; ring]
      simp only [decide_eq_true_eq]
      constructor
      · intro h
        exfalso
        rw [abs_of_pos (by norm_num : (0:ℚ) < 1/3)] at h
        linarith
      · rintro ⟨k, hk⟩
        exfalso
        push_cast at hk
        have h2 : (2*(k:ℚ)) = 2*(q:ℚ) + 1 := by linarith
        have h2' : 2*k = 2*q + 1 := by exact_mod_cast h2
        omega
    · rw [show ((4*q+3 : ℕ):ℚ) * (2/4) / (2/3) + 1/2 = ((3*(q:ℤ)+2 : ℤ):ℚ) + 3/4 by
        push_cast; ring]
      rw [floor_int_add_frac _ _ (by norm_num) (by norm_num)]
      rw [show ((3*(q:ℤ)+2 : ℤ):ℚ) * (2/3) - ((4*q+3 : ℕ):ℚ) * (2/4) = -(1/6) by
        push_cast; ring]
      simp only [decide_eq_true_eq, abs_neg]
      constructor
      · intro h
        exfalso
        rw [abs_of_pos (by norm_num : (0:ℚ) < 1/6)] at h
        linarith
      · rintro ⟨k, hk⟩
        exfalso
        push_cast at hk
        have h4 : (4*(k:ℚ)) = 4*(q:ℚ) + 3 := by linarith
        have h4' : 4*k = 4*q + 3 := by exact_mod_cast h4
        omega

/-! ## src/modules/MetronomeModule.tsx — the look-ahead scheduler loop

    function schedulerTick() {
      const scheduleAhead = 0.12;
      while (nextTime < ctx.currentTime + scheduleAhead) {
        scheduleClick(nextTime, beat);
        nextTime += spb;
        beat = (beat + 1) % sig.num;
      }
      // re-arm the coarse 25 ms timer
    }

The same loop appears in the global-sync metronome variant in the
`intervals.ts` bundle.  The loop terminates only for a positive period, so
the embedding guards the loop condition with `0 < spb` (the UI clamps BPM
to 30..300, so `spb > 0` always holds in the source). -/

/-- One `schedulerTick` while-loop: starting from state
(`t` = nextTime, `b` = beat), emit every event strictly before
`limit = now + 0.12`, stepping the time by `spb` and the beat by
`(b+1) % n`.  Returns the emitted events and the final state. -/
def schedulerTickLoop (spb : ℚ) (n : ℕ) (limit t : ℚ) (b : ℕ) :
    List (ℚ × ℕ) × ℚ × ℕ :=
  if h : t < limit ∧ 0 < spb then
    let r := schedulerTickLoop spb n limit (t + spb) ((b + 1) % n)
    ((t, b) :: r.1, r.2)
  else ([], t, b)
termination_by (⌈(limit - t) / spb⌉).toNat
decreasing_by
  have hx : 0 < (limit - t) / spb := div_pos (by linarith [h.1]) h.2
  have h1 : 0 < ⌈(limit - t) / spb⌉ := Int.ceil_pos.mpr hx
  have h2 : (limit - (t + spb)) / spb = (limit - t) / spb - 1 := by
    rw [show limit - (t + spb) = limit - t - spb by ring, sub_div,
      div_self (ne_of_gt h.2)]
  have h3 : ⌈(limit - (t + spb)) / spb⌉ = ⌈(limit - t) / spb⌉ - 1 := by
    rw [h2, Int.ceil_sub_one]
  omega

/-- A whole scheduler run: `start` sets `nextTime := anchor` and
`beat := 0`, then `schedulerTick` fires once for each wake-up time in
`nows` (the coarse timer's actual firing times, arbitrary).  Collects all
emitted events. -/
def schedulerRun (spb : ℚ) (n : ℕ) : ℚ → ℕ → List ℚ → List (ℚ × ℕ)
  | _, _, [] => []
  | t, b, now :: rest =>
    let r := schedulerTickLoop spb n (now + 12/100) t b
    r.1 ++ schedulerRun spb n r.2.1 r.2.2 rest

lemma schedulerTickLoop_spec (spb : ℚ) (n : ℕ) (limit : ℚ) (hn : 0 < n) :
    ∀ (t : ℚ) (b : ℕ), b < n →
      ∃ m : ℕ,
        (schedulerTickLoop spb n limit t b).1 =
          (List.range m).map (fun k : ℕ => (t + (k : ℚ) * spb, (b + k) % n)) ∧
        (schedulerTickLoop spb n limit t b).2.1 = t + (m : ℚ) * spb ∧
        (schedulerTickLoop spb n limit t b).2.2 = (b + m) % n := by
  intro t b
  induction t, b using schedulerTickLoop.induct spb n limit with
  | case1 t b h ih =>
    intro hb
    obtain ⟨m, hm1, hm2, hm3⟩ := ih (Nat.mod_lt _ hn)
    rw [schedulerTickLoop, dif_pos h]
    refine ⟨m + 1, ?_, ?_, ?_⟩
    · simp only [hm1, List.range_succ_eq_map, List.map_cons, List.map_map]
      congr 1
      · simp [Nat.mod_eq_of_lt hb]
      · apply List.map_congr_left
        intro k _
        simp only [Function.comp_apply, Prod.mk.injEq]
        constructor
        · push_cast
          ring
        · rw [Nat.mod_add_mod]
          congr 1
          omega
    · simp only [hm2]
      push_cast
      ring
    · simp only [hm3]
      rw [Nat.mod_add_mod]
      congr 1
      omega
  | case2 t b h =>
    intro hb
    rw [schedulerTickLoop, dif_neg h]
    exact ⟨0, by simp, by simp, by simp [Nat.mod_eq_of_lt hb]⟩

lemma schedulerRun_spec (spb : ℚ) (n : ℕ) (anchor : ℚ) (hn : 0 < n) :
    ∀ (nows : List ℚ) (K : ℕ),
      ∃ m : ℕ,
        schedulerRun spb n (anchor + (K : ℚ) * spb) (K % n) nows =
          (List.range m).map
            (fun j : ℕ => (anchor + ((K + j : ℕ) : ℚ) * spb, (K + j) % n)) := by
  intro nows
  induction nows with
  | nil => intro K; exact ⟨0, by simp [schedulerRun]⟩
  | cons now rest ih =>
    intro K
    obtain ⟨L, h1, h2, h3⟩ := schedulerTickLoop_spec spb n (now + 12/100) hn
      (anchor + (K : ℚ) * spb) (K % n) (Nat.mod_lt _ hn)
    have harg : anchor + (K : ℚ) * spb + (L : ℚ) * spb = anchor + ((K + L : ℕ) : ℚ) * spb := by
      push_cast
      ring
    have harg2 : (K % n + L) % n = (K + L) % n := by
      rw [Nat.mod_add_mod]
    obtain ⟨m, hm⟩ := ih (K + L)
    refine ⟨L + m, ?_⟩
    rw [schedulerRun]
    rw [h2, h3, harg, harg2, hm, h1]
    rw [List.range_add, List.map_append, List.map_map]
    congr 1
    · apply List.map_congr_left
      intro k _
      simp only [Prod.mk.injEq]
      constructor
      · push_cast
        ring
      · rw [Nat.mod_add_mod]
    · apply List.map_congr_left
      intro k _
      simp only [Function.comp_apply, Prod.mk.injEq]
      constructor
      · push_cast
        ring
      · rw [Nat.add_assoc]

/-- C2.  Drift-freedom of the look-ahead scheduler: for every positive
period `spb`, every positive beats-per-bar `n`, every anchor, and every
sequence of coarse wake-up times (however jittered), the k-th emitted event
is exactly `(anchor + k·spb, k mod n)`: consecutive event timestamps differ
by exactly the period (never re-derived from the wall clock) and the beat
index cycles `(i+1) mod n` starting from 0. -/
theorem claim_C2 (spb : ℚ) (n : ℕ) (anchor : ℚ) (nows : List ℚ)
    (hspb : 0 < spb) (hn : 0 < n) :
    schedulerRun spb n anchor 0 nows =
      (List.range (schedulerRun spb n anchor 0 nows).length).map
        (fun k : ℕ => (anchor + (k : ℚ) * spb, k % n)) := by
  obtain ⟨m, hm⟩ := schedulerRun_spec spb n anchor hn nows 0
  simp only [Nat.cast_zero, zero_mul, add_zero, Nat.zero_mod, Nat.zero_add] at hm
  rw [hm]
  simp only [List.length_map, List.length_range]

/-- Witness for C2 at a concrete input: period 1, 2 beats per bar, anchor
0, a single tick waking at time 0 (lookahead window `[0, 0.12)`), which
emits exactly the anchor event `(0, 0)`. -/
theorem claim_C2_witness :
    (0:ℚ) < 1 ∧ (0 < 2) ∧
    (schedulerRun 1 2 0 0 [0] =
      (List.range (schedulerRun 1 2 0 0 [0]).length).map
        (fun k : ℕ => ((0 : ℚ) + (k : ℚ) * 1, k % 2))) ∧
    schedulerRun 1 2 0 0 [0] = [(0, 0)] := by
  refine ⟨by norm_num, by norm_num, claim_C2 1 2 0 [0] (by norm_num) (by norm_num), ?_⟩
  rw [schedulerRun]
  rw [schedulerTickLoop, dif_pos (by norm_num)]
  rw [schedulerTickLoop, dif_neg (by norm_num)]
  rw [schedulerRun]
  simp

/-! ## src/modules/PolyrhythmModule.tsx — per-stream scheduling loop

    while (true) {
      const tEvent = base + nextIndex * step;
      if (tEvent < now - 0.01) { nextIndex++; continue; }   // skip missed
      if (tEvent > now + SCHEDULE_AHEAD) break;             // 0.15 s
      scheduleClick(ctx, tEvent, coincide ? hi : lo, bus);
      nextIndex++;
    }

The loop terminates only for a positive step, so the embedding guards with
`0 < step` (the UI clamps counts to 1..32 and BPM to 20..400, so
`step = barSeconds/count > 0` always holds in the source). -/

/-- One stream's scheduling loop from the polyrhythm tick: starting at
index `idx`, skip events more than 10 ms in the past, emit events up to
0.15 s ahead (with their coincidence flag against the other stream), stop
at the first event beyond the window.  Returns the emitted events and the
final index. -/
def polyLoop (base step ostep now : ℚ) (idx : ℕ) : List (ℚ × Bool) × ℕ :=
  if hstep : 0 < step then
    if base + idx * step < now - 1/100 then
      polyLoop base step ostep now (idx + 1)
    else if now + 3/20 < base + idx * step then ([], idx)
    else
      let r := polyLoop base step ostep now (idx + 1)
      ((base + idx * step, polyCoincide base ostep (base + idx * step)) :: r.1, r.2)
  else ([], idx)
termination_by (⌊(now + 3/20 - base) / step⌋ + 1 - (idx : ℤ)).toNat
decreasing_by
  all_goals
    have hle : (idx : ℚ) * step ≤ now + 3/20 - base := by nlinarith
    have hfl : (idx : ℤ) ≤ ⌊(now + 3/20 - base) / step⌋ :=
      Int.le_floor.mpr (by
        rw [le_div_iff₀ hstep]
        push_cast
        linarith)
    omega

/-- C9, counterexample to the claim as stated: the metronome scheduler has
no catch-up guard.  With pending event time 0 and the clock stalled to
`now = 10`, its tick loop emits the event stamped `t = 0`, which lies
10 seconds (far more than 10 ms) before the current time. -/
theorem claim_C9_cx :
    (schedulerTickLoop (1/2) 4 (10 + 12/100) 0 0).1.head? = some (0, 0) ∧
    (0:ℚ) < 10 - 1/100 := by
  constructor
  · rw [schedulerTickLoop, dif_pos (by norm_num)]
    rfl
  · norm_num

/-- C9 as amended: the polyrhythm scheduler never emits an event whose
timestamp lies more than 10 ms before the current audio-clock time (missed
events are skipped by rolling the stream index forward without emitting
them), and every emitted event lies within the 0.15 s lookahead window;
the metronome tick loop (`schedulerTickLoop`) has no such guard and after
a stall replays all missed events with past timestamps. -/
theorem claim_C9 (base step ostep now : ℚ) (idx : ℕ)
    (ev : ℚ × Bool) (hev : ev ∈ (polyLoop base step ostep now idx).1) :
    now - 1/100 ≤ ev.1 ∧ ev.1 ≤ now + 3/20 := by
  induction idx using polyLoop.induct base step ostep now with
  | case1 idx hstep hskip ih =>
    rw [polyLoop, dif_pos hstep, if_pos hskip] at hev
    exact ih hev
  | case2 idx hstep hskip hbreak =>
    rw [polyLoop, dif_pos hstep, if_neg hskip, if_pos hbreak] at hev
    simp at hev
  | case3 idx hstep hskip hbreak ih =>
    rw [polyLoop, dif_pos hstep, if_neg hskip, if_neg hbreak] at hev
    rcases List.mem_cons.mp hev with h | h
    · subst h
      constructor
      · simpa using le_of_not_lt hskip
      · simpa using le_of_not_lt hbreak
    · exact ih h
  | case4 idx hstep =>
    rw [polyLoop, dif_neg hstep] at hev
    simp at hev

/-- Witness for C9 at a concrete input: stream with step 1 from anchor 0 at
`now = 0`; the emitted event at t = 0 lies within `[now − 0.01, now + 0.15]`. -/
theorem claim_C9_witness :
    (0:ℚ) - 1/100 ≤ (0:ℚ) ∧ (0:ℚ) ≤ 0 + 3/20 := by
  have hmem : ((0:ℚ), polyCoincide 0 1 0) ∈ (polyLoop 0 1 1 0 0).1 := by
    rw [polyLoop, dif_pos (by norm_num), if_neg (by norm_num), if_neg (by norm_num)]
    simp
  exact claim_C9 0 1 1 0 0 (0, polyCoincide 0 1 0) hmem

lemma sumDt_cons (c dt : ℚ) (rest : List (ℚ × ℚ)) :
    sumDt ((c, dt) :: rest) = dt + sumDt rest := by
  simp [sumDt]

lemma runHold_first_fire (tol holdMs : ℚ) :
    ∀ (frames : List (ℚ × ℚ)) (h0 : ℚ) (k : ℕ), k < frames.length →
      (∀ p ∈ frames, |p.1| ≤ tol) →
      (∀ j < k, h0 + sumDt (frames.take (j+1)) < holdMs) →
      holdMs ≤ h0 + sumDt (frames.take (k+1)) →
      (runHold tol holdMs h0 frames).2.getD k false = true ∧
      (∀ j < k, (runHold tol holdMs h0 frames).2.getD j false = false) ∧
      (runHold tol holdMs h0 (frames.take (k+1))).1 = 0 := by
  intro frames
  induction frames with
  | nil => intro h0 k hk; simp at hk
  | cons f rest ih =>
    obtain ⟨c, dt⟩ := f
    intro h0 k hk hin hbefore hreach
    have hc : |c| ≤ tol := hin (c, dt) (List.mem_cons_self _ _)
    match k with
    | 0 =>
      have hfire : holdMs ≤ h0 + dt := by
        have := hreach
        simp only [List.take_succ_cons, List.take_zero, sumDt_cons] at this
        simp [sumDt] at this
        linarith
      have hstep : holdUpdate tol holdMs c h0 dt = (0, true) := by
        simp only [holdUpdate, if_pos hc, if_pos hfire]
      refine ⟨?_, by omega, ?_⟩
      · simp only [runHold, hstep]
        rfl
      · simp only [List.take_succ_cons, List.take_zero, runHold, hstep]
    | k' + 1 =>
      have hnof : h0 + dt < holdMs := by
        have := hbefore 0 (by omega)
        simp only [List.take_succ_cons, List.take_zero, sumDt_cons] at this
        simp [sumDt] at this
        linarith
      have hstep : holdUpdate tol holdMs c h0 dt = (h0 + dt, false) := by
        simp only [holdUpdate, if_pos hc, if_neg (by linarith : ¬ holdMs ≤ h0 + dt)]
      have hlen : k' < rest.length := by simpa using hk
      have hin' : ∀ p ∈ rest, |p.1| ≤ tol :=
        fun p hp => hin p (List.mem_cons_of_mem _ hp)
      have hbefore' : ∀ j < k', h0 + dt + sumDt (rest.take (j+1)) < holdMs := by
        intro j hj
        have := hbefore (j+1) (by omega)
        simp only [List.take_succ_cons, sumDt_cons] at this
        linarith
      have hreach' : holdMs ≤ h0 + dt + sumDt (rest.take (k'+1)) := by
        have := hreach
        simp only [List.take_succ_cons, sumDt_cons] at this
        linarith
      obtain ⟨ih1, ih2, ih3⟩ := ih (h0 + dt) k' hlen hin' hbefore' hreach'
      refine ⟨?_, ?_, ?_⟩
      · simp only [runHold, hstep]
        exact ih1
      · intro j hj
        match j with
        | 0 => simp only [runHold, hstep]; rfl
        | j' + 1 =>
          simp only [runHold, hstep]
          exact ih2 j' (by omega)
      · simp only [List.take_succ_cons, runHold, hstep]
        exact ih3

/-- C4.  For every sequence of in-range frames (median-filtered cents
within tolerance each frame), `onCorrect` fires exactly in the first frame
in which the accumulated `heldMs` (the running sum of per-frame `dt`)
reaches or exceeds `holdMs` — not in any earlier frame — and at that moment
`heldMs` is reset to 0 (so a sustained in-tune note fires once per full
hold period). -/
theorem claim_C4 (tol holdMs : ℚ) (frames : List (ℚ × ℚ)) (k : ℕ)
    (hk : k < frames.length)
    (hin : ∀ p ∈ frames, |p.1| ≤ tol)
    (hbefore : ∀ j < k, sumDt (frames.take (j+1)) < holdMs)
    (hreach : holdMs ≤ sumDt (frames.take (k+1))) :
    (runHold tol holdMs 0 frames).2.getD k false = true ∧
    (∀ j < k, (runHold tol holdMs 0 frames).2.getD j false = false) ∧
    (runHold tol holdMs 0 (frames.take (k+1))).1 = 0 := by
  refine runHold_first_fire tol holdMs frames 0 k hk hin ?_ ?_
  · intro j hj
    simpa using hbefore j hj
  · simpa using hreach

/-- Witness for C4 at a concrete input: tolerance 25, hold 500 ms, three
in-range frames of 200 ms each; the gate fires exactly on the third frame
(cumulative 600 ≥ 500) and the hold timer is 0 afterwards. -/
theorem claim_C4_witness :
    ((2:ℕ) < 3) ∧
    (runHold 25 500 0 [(0, 200), (5, 200), (-5, 200)]).2.getD 2 false = true ∧
    (∀ j < 2, (runHold 25 500 0 [(0, 200), (5, 200), (-5, 200)]).2.getD j false = false) ∧
    (runHold 25 500 0 ([(0, 200), (5, 200), (-5, 200)].take 3)).1 = 0 := by
  refine ⟨by norm_num, ?_⟩
  have h := claim_C4 25 500 [(0, 200), (5, 200), (-5, 200)] 2
    (by norm_num)
    (by
      intro p hp
      simp only [List.mem_cons, List.not_mem_nil, or_false] at hp
      rcases hp with rfl | rfl | rfl <;> norm_num)
    (by
      intro j hj
      interval_cases j <;> norm_num [sumDt])
    (by norm_num [sumDt])
  exact h

/-! ## src/components/MicAnswer.tsx — One-Euro smoothing and the frame
state machine

`piF` is the exact rational value of the IEEE-754 double `Math.PI`.

The cents offset in the source is `1200·log2(hzSmooth/refFreq)` with
`refFreq = midiToFreq(candidateMidi)`; since
`1200·log2(h/midiToFreq(c)) = 100·(freqToMidi(h) − c)` exactly, the
embedding computes `100·(midiFloat − candidateMidi)` and abstracts the
transcendental `freqToMidi` as a parameter `f2m`. -/

/-- The IEEE-754 double value of `Math.PI`, as an exact rational. -/
def piF : ℚ := 884279719003555 / 281474976710656

/-- `OneEuro.alpha` from `MicAnswer.tsx`:
`te = 1/max(1e-6, freq); tau = 1/(2π·cut); 1/(1 + tau/te)`. -/
def euroAlpha (freq cut : ℚ) : ℚ :=
  let te := 1 / max (1/1000000) freq
  let tau := 1 / (2 * piF * cut)
  1 / (1 + tau / te)

/-- `OneEuro.filter` from `MicAnswer.tsx`, acting on the explicit state
(`xPrev`, `dxPrev`), with `none` for the uninitialized state.  Returns the
new (`xPrev`, `dxPrev`) = (output, smoothed derivative). -/
def oneEuroFilter (minCut beta dcut : ℚ) (xPrev dxPrev : Option ℚ)
    (x dt : ℚ) : ℚ × ℚ :=
  let freq := 1 / max (1/1000000) dt
  let dx := match xPrev with
    | none => 0
    | some xp => (x - xp) * freq
  let aD := euroAlpha freq dcut
  let dxHat := match dxPrev with
    | none => dx
    | some dp => aD * dx + (1 - aD) * dp
  let cut := minCut + beta * |dxHat|
  let aX := euroAlpha freq cut
  let xHat := match xPrev with
    | none => x
    | some xp => aX * x + (1 - aX) * xp
  (xHat, dxHat)

/-- The per-frame mutable state of the `MicAnswer.tsx` tick (the One-Euro
variant): filter state, last frame timestamp, hold timer, time of the last
valid pitch, and the cents median window. -/
structure MicState where
  euroX : Option ℚ
  euroDx : Option ℚ
  lastTs : ℚ
  heldMs : ℚ
  lastPitchSeen : ℚ
  window : List ℚ
deriving DecidableEq

/-- `dt` computation of the `MicAnswer.tsx` tick (seconds):
`Math.min(150, Math.max(0.001, now - (lastTs || now))) / 1000`. -/
def micDt (lastTs now : ℚ) : ℚ :=
  min 150 (max (1/1000) (now - (if lastTs = 0 then now else lastTs))) / 1000

/-- The null-pitch branch of the `MicAnswer.tsx` tick: after more than
180 ms without a valid pitch, clear the median window and the hold timer —
and nothing else (in particular the One-Euro filter state is kept). -/
def micNullFrame (s : MicState) (now : ℚ) : MicState × Option ℚ × Bool :=
  if 180 < now - s.lastPitchSeen then
    ({ s with lastTs := now, window := [], heldMs := 0 }, none, false)
  else ({ s with lastTs := now }, none, false)

/-- One frame of the `MicAnswer.tsx` tick (One-Euro variant).  `hzRaw` is
the detector result (`none` for null; a raw `0` is falsy in JS and take
the null path).  Returns the new state, the smoothed pitch reported this
frame, and whether `onCorrect` fired. -/
def micFrame (f2m : ℚ → ℚ) (targetPc tol holdMs : ℚ) (s : MicState)
    (now : ℚ) (hzRaw : Option ℚ) : MicState × Option ℚ × Bool :=
  let dt := micDt s.lastTs now
  match hzRaw with
  | some hz =>
    if hz = 0 then micNullFrame s now
    else
      let e := oneEuroFilter (6/5) (1/100) (3/2) s.euroX s.euroDx hz dt
      let hzSmooth := e.1
      let midiFloat := f2m hzSmooth
      let cand := nearestMidiForPc midiFloat targetPc
      let centsRaw := 100 * (midiFloat - cand)
      let maxWin : ℕ := if hzSmooth < 130 then 11 else 7
      let w := pushWindow maxWin s.window centsRaw
      let cf := median w
      let r := holdUpdate tol holdMs cf s.heldMs (dt * 1000)
      (⟨some e.1, some e.2, now, r.1, now, w⟩, some hzSmooth, r.2)
  | none => micNullFrame s now

/-! ## The adaptive-EMA `MicAnswer` variant (bundled with `Tuner.tsx`)

This variant keeps a nullable smoothed pitch `smoothHz` and resets it on
dropout; its blend factor is `1 − exp(−dt/tau)`, with the transcendental
`exp` abstracted as a parameter `expQ`. -/

/-- State of the adaptive-EMA `MicAnswer` variant. -/
structure EmaState where
  smoothHz : Option ℚ
  lastTs : ℚ
  heldMs : ℚ
  lastPitchSeen : ℚ
  window : List ℚ
deriving DecidableEq

/-- `dt` of the EMA variant (milliseconds):
`Math.min(120, Math.max(0, now - (lastTs || now)))`. -/
def emaDt (lastTs now : ℚ) : ℚ :=
  min 120 (max 0 (now - (if lastTs = 0 then now else lastTs)))

/-- Null-pitch branch of the EMA variant: after more than 180 ms without a
valid pitch, clear the smoothed pitch, the median window and the hold
timer. -/
def emaNullFrame (s : EmaState) (now : ℚ) : EmaState × Bool :=
  if 180 < now - s.lastPitchSeen then
    ({ s with smoothHz := none, lastTs := now, window := [], heldMs := 0 }, false)
  else ({ s with lastTs := now }, false)

/-- One frame of the adaptive-EMA `MicAnswer` variant. -/
def emaFrame (expQ f2m : ℚ → ℚ) (targetPc tol holdMs : ℚ) (s : EmaState)
    (now : ℚ) (hzRaw : Option ℚ) : EmaState × Bool :=
  let dt := emaDt s.lastTs now
  match hzRaw with
  | some hz =>
    if hz = 0 then emaNullFrame s now
    else
      let tau : ℚ := 180 + (if hz < 130 then 200 else if hz < 200 then 120 else 40)
      let smooth2 := match s.smoothHz with
        | none => hz
        | some sh => sh + (hz - sh) * (1 - expQ (-(dt / tau)))
      let midiFloat := f2m hz
      let cand := nearestMidiForPc midiFloat targetPc
      let centsRaw := 100 * (midiFloat - cand)
      let maxWin : ℕ := if hz < 130 then 11 else 7
      let w := pushWindow maxWin s.window centsRaw
      let cf := median w
      let r := holdUpdate tol holdMs cf s.heldMs dt
      (⟨some smooth2, now, r.1, now, w⟩, r.2)
  | none => emaNullFrame s now

lemma piF_pos : 0 < piF := by norm_num [piF]

lemma euroAlpha_pos_lt_one (freq cut : ℚ) (hc : 0 < cut) :
    0 < euroAlpha freq cut ∧ euroAlpha freq cut < 1 := by
  have hpi := piF_pos
  have hte : 0 < max (1/1000000 : ℚ) freq := lt_max_of_lt_left (by norm_num)
  have h2 : 0 < 2 * piF * cut := by nlinarith
  have htau : 0 < 1 / (2 * piF * cut) := one_div_pos.mpr h2
  have hteinv : 0 < 1 / max (1/1000000 : ℚ) freq := one_div_pos.mpr hte
  have hq : 0 < 1 / (2 * piF * cut) / (1 / max (1/1000000 : ℚ) freq) :=
    div_pos htau hteinv
  simp only [euroAlpha]
  constructor
  · exact one_div_pos.mpr (by linarith)
  · rw [div_lt_one (by linarith)]
    linarith

lemma oneEuro_blend_lt (minCut beta dcut xp dxp x dt : ℚ)
    (hm : 0 < minCut) (hb : 0 ≤ beta) (hxp : xp < x) :
    (oneEuroFilter minCut beta dcut (some xp) (some dxp) x dt).1 < x := by
  simp only [oneEuroFilter]
  have hcut : 0 < minCut + beta *
      |euroAlpha (1 / max (1/1000000) dt) dcut * ((x - xp) * (1 / max (1/1000000) dt)) +
        (1 - euroAlpha (1 / max (1/1000000) dt) dcut) * dxp| := by
    have : 0 ≤ beta * |euroAlpha (1 / max (1/1000000) dt) dcut *
        ((x - xp) * (1 / max (1/1000000) dt)) +
        (1 - euroAlpha (1 / max (1/1000000) dt) dcut) * dxp| :=
      mul_nonneg hb (abs_nonneg _)
    linarith
  obtain ⟨h0, h1⟩ := euroAlpha_pos_lt_one (1 / max (1/1000000) dt) _ hcut
  nlinarith [h0, h1, hxp]

/-- C6, counterexample to the claim as stated: start from a state whose
One-Euro filter has seen pitch 100 (last valid pitch at t = 16 ms).  A null
frame at t = 216 (200 ms > the 180 ms grace window) clears only the median
window and hold timer — the filter state survives as `some 100` — and the
first valid pitch afterwards (200 Hz at t = 232) produces a smoothed
output strictly below 200, i.e. it blends with the pre-dropout history
instead of seeding fresh. -/
theorem claim_C6_cx :
    (180:ℚ) < 216 - (⟨some 100, some 0, 16, 0, 16, []⟩ : MicState).lastPitchSeen ∧
    (micFrame (fun _ => 0) 0 25 500 ⟨some 100, some 0, 16, 0, 16, []⟩ 216 none).1 =
      ⟨some 100, some 0, 216, 0, 16, []⟩ ∧
    (micFrame (fun _ => 0) 0 25 500 (⟨some 100, some 0, 216, 0, 16, []⟩ : MicState)
        232 (some 200)).2.1 ≠ some 200 := by
  refine ⟨by norm_num, ?_, ?_⟩
  · simp only [micFrame, micNullFrame]
    rw [if_pos (by norm_num)]
  · have hout : (micFrame (fun _ => 0) 0 25 500
        (⟨some 100, some 0, 216, 0, 16, []⟩ : MicState) 232 (some 200)).2.1 =
        some ((oneEuroFilter (6/5) (1/100) (3/2) (some 100) (some 0) 200
          (micDt 216 232)).1) := by
      simp only [micFrame]
      rw [if_neg (by norm_num)]
    rw [hout]
    have hlt : (oneEuroFilter (6/5) (1/100) (3/2) (some 100) (some 0) 200
        (micDt 216 232)).1 < 200 :=
      oneEuro_blend_lt (6/5) (1/100) (3/2) 100 0 200 (micDt 216 232)
        (by norm_num) (by norm_num) (by norm_num)
    intro hcon
    rw [Option.some_inj] at hcon
    linarith

/-- C6 as amended: after more than 180 ms of continuous null, the dropout
reset clears the cents median window and the hold timer; in the
adaptive-EMA variant it also resets the filter state (`smoothHz := null`)
so the next valid pitch seeds fresh, but in the One-Euro variant
(`MicAnswer.tsx`) the filter's internal state (`xPrev`, `dxPrev`) is kept,
so the first valid pitch after a dropout is blended with the pre-dropout
history rather than seeding fresh. -/
theorem claim_C6 :
    (∀ (f2m : ℚ → ℚ) (targetPc tol holdMs : ℚ) (s : MicState) (now : ℚ),
      180 < now - s.lastPitchSeen →
      micFrame f2m targetPc tol holdMs s now none =
        ({ s with lastTs := now, window := [], heldMs := 0 }, none, false)) ∧
    (∀ (expQ f2m : ℚ → ℚ) (targetPc tol holdMs : ℚ) (s : EmaState) (now : ℚ),
      180 < now - s.lastPitchSeen →
      emaFrame expQ f2m targetPc tol holdMs s now none =
        ({ s with smoothHz := none, lastTs := now, window := [], heldMs := 0 }, false)) ∧
    (∀ (expQ f2m : ℚ → ℚ) (targetPc tol holdMs : ℚ) (s : EmaState) (now hz : ℚ),
      hz ≠ 0 → s.smoothHz = none →
      ((emaFrame expQ f2m targetPc tol holdMs s now (some hz)).1).smoothHz = some hz) := by
  refine ⟨?_, ?_, ?_⟩
  · intro f2m targetPc tol holdMs s now h
    simp only [micFrame, micNullFrame]
    rw [if_pos h]
  · intro expQ f2m targetPc tol holdMs s now h
    simp only [emaFrame, emaNullFrame]
    rw [if_pos h]
  · intro expQ f2m targetPc tol holdMs s now hz hne hnone
    simp only [emaFrame, hnone]
    rw [if_neg hne]

/-- Witness for C6 (amended) at concrete inputs. -/
theorem claim_C6_witness :
    ((180:ℚ) < 200 - 0 ∧
      micFrame (fun x => x) 0 25 500 ⟨some 5, some 0, 10, 3, 0, [1]⟩ 200 none =
        (⟨some 5, some 0, 200, 0, 0, []⟩, none, false)) ∧
    (emaFrame (fun _ => 0) (fun x => x) 0 25 500 ⟨some 7, 10, 3, 0, [1]⟩ 200 none =
        (⟨none, 200, 0, 0, []⟩, false)) ∧
    ((150:ℚ) ≠ 0 ∧
      ((emaFrame (fun _ => 0) (fun x => x) 0 25 500 ⟨none, 10, 0, 195, []⟩ 200
        (some 150)).1).smoothHz = some 150) := by
  refine ⟨⟨by norm_num, ?_⟩, ?_, by norm_num, ?_⟩
  · exact claim_C6.1 (fun x => x) 0 25 500 ⟨some 5, some 0, 10, 3, 0, [1]⟩ 200 (by norm_num)
  · exact claim_C6.2.1 (fun _ => 0) (fun x => x) 0 25 500 ⟨some 7, 10, 3, 0, [1]⟩ 200
      (by norm_num)
  · exact claim_C6.2.2 (fun _ => 0) (fun x => x) 0 25 500 ⟨none, 10, 0, 195, []⟩ 200 150
      (by norm_num) rfl

/-! ## src/utils/audio.ts — `detectPitchHzYIN`

The embedding mirrors the source exactly, with two NaN-producing float
situations modelled by `Option ℚ` (`none` = NaN):

  * `cmnd[tau] = d[tau]·tau / running` is NaN when `running = 0`
    (e.g. a constant, non-silent buffer); a JS comparison on NaN is false
    (`jsLtC` / `jsLtO` below).
  * When the parabolic-interpolation inputs contain NaN, `denom !== 0`
    holds in JS, `betterTau` becomes NaN and `isFinite(f)` fails, so the
    function returns null; when `betterTau = 0`, `f` is Infinity and the
    function also returns null.

The RMS silence gate `sqrt(sumSq/N) < 0.006` is modelled as
`N > 0 ∧ sumSq/N < 0.000036` (squaring both nonnegative sides; for `N = 0`
the JS comparison `NaN < 0.006` is false, so the gate is not taken). -/

/-- Sum of squares of the buffer. -/
def yinSumSq (buf : List ℚ) : ℚ := (buf.map (fun x => x^2)).sum

/-- The silence gate of `detectPitchHzYIN`: `rms < 0.006`. -/
def yinSilence (buf : List ℚ) : Prop :=
  0 < buf.length ∧ yinSumSq buf / buf.length < 36/1000000

instance (buf : List ℚ) : Decidable (yinSilence buf) := by
  unfold yinSilence
  infer_instance

/-- `maxTau = Math.min(Math.floor(sr / minHz), N - 1)`. -/
def yinMaxTau (buf : List ℚ) (sr minHz : ℚ) : ℤ :=
  min ⌊sr / minHz⌋ ((buf.length : ℤ) - 1)

/-- `minTau = Math.max(2, Math.floor(sr / maxHz))` (always ≥ 2). -/
def yinMinTau (sr maxHz : ℚ) : ℕ := (max 2 ⌊sr / maxHz⌋).toNat

/-- The difference function `d(τ) = Σ_{i < N−τ} (x[i] − x[i+τ])²`. -/
def yinDiff (buf : List ℚ) (tau : ℕ) : ℚ :=
  ((List.range (buf.length - tau)).map
    (fun i => (buf.getD i 0 - buf.getD (i + tau) 0)^2)).sum

/-- The running sum `Σ_{s=1..τ} d(s)` used by the CMND normalization. -/
def yinRunning (buf : List ℚ) (tau : ℕ) : ℚ :=
  ((List.range tau).map (fun s => yinDiff buf (s+1))).sum

/-- The cumulative-mean normalized difference
`cmnd(τ) = d(τ)·τ / Σ_{1..τ} d(·)` with `cmnd(0) = 1`; `none` models the
NaN produced by `0/0` when the running sum is zero. -/
def yinCmnd (buf : List ℚ) (tau : ℕ) : Option ℚ :=
  if tau = 0 then some 1
  else if yinRunning buf tau = 0 then none
  else some (yinDiff buf tau * tau / yinRunning buf tau)

/-- JS `<` against a constant, with NaN (`none`) comparing false. -/
def jsLtC (a : Option ℚ) (c : ℚ) : Bool :=
  match a with
  | some x => decide (x < c)
  | none => false

/-- JS `<` between two possibly-NaN values, NaN comparing false. -/
def jsLtO (a b : Option ℚ) : Bool :=
  match a, b with
  | some x, some y => decide (x < y)
  | _, _ => false

/-- The descent to a local minimum after the first threshold crossing:
`while (t + 1 <= maxTau && cmnd[t+1] < cmnd[t]) t++`. -/
def yinDescend (cm : ℕ → Option ℚ) (maxTau : ℤ) (t : ℕ) : ℕ :=
  if h : (t + 1 : ℤ) ≤ maxTau ∧ jsLtO (cm (t+1)) (cm t) = true then
    yinDescend cm maxTau (t+1)
  else t
termination_by (maxTau + 1 - (t : ℤ)).toNat
decreasing_by
  have := h.1
  omega

/-- The absolute-threshold scan: first `τ ∈ [minTau, maxTau]` with
`cmnd(τ) < threshold` (NaN comparing false). -/
def yinScan (buf : List ℚ) (sr minHz maxHz θ : ℚ) : Option ℕ :=
  (List.range' (yinMinTau sr maxHz)
    ((yinMaxTau buf sr minHz + 1 - yinMinTau sr maxHz).toNat)).find?
    (fun t => jsLtC (yinCmnd buf t) θ)

/-- Parabolic interpolation around the chosen lag and conversion to a
frequency; `none` models every non-finite outcome (NaN from a NaN input,
or Infinity from `betterTau = 0`). -/
def yinRefine (cm : ℕ → Option ℚ) (maxTau : ℤ) (sr : ℚ) (tau : ℕ) : Option ℚ :=
  let x0 := if tau ≤ 1 then tau else tau - 1
  let x2 := if (tau + 1 : ℤ) > maxTau then tau else tau + 1
  match cm x0, cm tau, cm x2 with
  | some y0, some y1, some y2 =>
    let denom := y0 - 2*y1 + y2
    let betterTau := if denom ≠ 0 then (tau : ℚ) + (y0 - y2) / (2 * denom) else (tau : ℚ)
    if betterTau = 0 then none else some (sr / betterTau)
  | _, _, _ => none

/-- `detectPitchHzYIN` from `audio.ts`. -/
def detectPitchHzYIN (buf : List ℚ) (sr minHz maxHz θ : ℚ) : Option ℚ :=
  if yinSilence buf then none
  else
    match yinScan buf sr minHz maxHz θ with
    | none => none
    | some t0 =>
      yinRefine (yinCmnd buf) (yinMaxTau buf sr minHz) sr
        (yinDescend (yinCmnd buf) (yinMaxTau buf sr minHz) t0)

/-- Spec-side predicate: no CMND value in the lag search range falls below
the threshold. -/
def yinNoCrossing (buf : List ℚ) (sr minHz maxHz θ : ℚ) : Prop :=
  ∀ t : ℕ, yinMinTau sr maxHz ≤ t → (t : ℤ) ≤ yinMaxTau buf sr minHz →
    jsLtC (yinCmnd buf t) θ = false

/-- Spec-side predicate: the scan found a crossing but the refined
frequency is non-finite (NaN or Infinity). -/
def yinBadRefine (buf : List ℚ) (sr minHz maxHz θ : ℚ) : Prop :=
  ∃ t0, yinScan buf sr minHz maxHz θ = some t0 ∧
    yinRefine (yinCmnd buf) (yinMaxTau buf sr minHz) sr
      (yinDescend (yinCmnd buf) (yinMaxTau buf sr minHz) t0) = none

lemma yinScan_none_iff (buf : List ℚ) (sr minHz maxHz θ : ℚ) :
    yinScan buf sr minHz maxHz θ = none ↔ yinNoCrossing buf sr minHz maxHz θ := by
  rw [yinScan, List.find?_eq_none]
  constructor
  · intro h t ht1 ht2
    by_contra hcon
    refine h t ?_ (by simpa using hcon)
    rw [List.mem_range']
    refine ⟨t - yinMinTau sr maxHz, ?_, by omega⟩
    omega
  · intro h t ht
    rw [List.mem_range'] at ht
    obtain ⟨i, hi, rfl⟩ := ht
    simp only [Bool.not_eq_true]
    refine h _ (by omega) ?_
    omega

/-- C1.  `detectPitchHzYIN` returns null exactly in the degenerate cases:
the RMS silence gate, no CMND value below the threshold in the lag search
range, or a non-finite refined frequency; in particular it returns null on
the empty buffer, and every non-null result is a finite rational
`sr / betterTau` — the (total) function never throws and never returns
NaN or Infinity. -/
theorem claim_C1 (buf : List ℚ) (sr minHz maxHz θ : ℚ)
    (hmin : 0 < minHz) (hmax : 0 < maxHz) :
    (detectPitchHzYIN buf sr minHz maxHz θ = none ↔
      (yinSilence buf ∨ yinNoCrossing buf sr minHz maxHz θ ∨
        yinBadRefine buf sr minHz maxHz θ)) ∧
    detectPitchHzYIN [] sr minHz maxHz θ = none := by
  have hempty : detectPitchHzYIN [] sr minHz maxHz θ = none := by
    rw [detectPitchHzYIN]
    rw [if_neg (by simp [yinSilence])]
    have hscan : yinScan [] sr minHz maxHz θ = none := by
      rw [yinScan]
      have h1 : yinMaxTau [] sr minHz ≤ -1 := by
        simp only [yinMaxTau, List.length_nil]
        omega
      have h2 : (2 : ℤ) ≤ yinMinTau sr maxHz := by
        simp only [yinMinTau]
        omega
      have h3 : (yinMaxTau [] sr minHz + 1 - yinMinTau sr maxHz).toNat = 0 := by
        omega
      rw [h3]
      rfl
    rw [hscan]
  refine ⟨?_, hempty⟩
  rw [detectPitchHzYIN]
  by_cases hsil : yinSilence buf
  · rw [if_pos hsil]
    simp [hsil]
  · rw [if_neg hsil]
    rcases hscan : yinScan buf sr minHz maxHz θ with _ | t0
    · have hnc := (yinScan_none_iff buf sr minHz maxHz θ).mp hscan
      simp [hnc]
    · have hnotnc : ¬ yinNoCrossing buf sr minHz maxHz θ := by
        intro hnc
        rw [(yinScan_none_iff buf sr minHz maxHz θ).mpr hnc] at hscan
        exact Option.noConfusion hscan
      constructor
      · intro hnone
        exact Or.inr (Or.inr ⟨t0, hscan, hnone⟩)
      · intro h
        rcases h with h | h | h
        · exact absurd h hsil
        · exact absurd h hnotnc
        · obtain ⟨t1, ht1, href⟩ := h
          rw [hscan] at ht1
          rw [Option.some_inj] at ht1
          rw [ht1]
          exact href

/-- Witness for C1 at concrete inputs: an all-zero (silent) 4-sample
buffer at a 100 Hz sample rate with bounds [30, 800] and threshold 0.12 —
the silence gate holds, so the detector returns null; and the empty buffer
returns null. -/
theorem claim_C1_witness :
    (0:ℚ) < 30 ∧ (0:ℚ) < 800 ∧
    (detectPitchHzYIN [0, 0, 0, 0] 100 30 800 (12/100) = none ↔
      (yinSilence [0, 0, 0, 0] ∨ yinNoCrossing [0, 0, 0, 0] 100 30 800 (12/100) ∨
        yinBadRefine [0, 0, 0, 0] 100 30 800 (12/100))) ∧
    detectPitchHzYIN [] 100 30 800 (12/100) = none ∧
    yinSilence [0, 0, 0, 0] := by
  have h := claim_C1 [0, 0, 0, 0] 100 30 800 (12/100) (by norm_num) (by norm_num)
  exact ⟨by norm_num, by norm_num, h.1, h.2, by norm_num [yinSilence, yinSumSq]⟩

end ToneGenius
